import Mathlib

/-!
Verification of the environment-bootstrap pipeline of `eng209/assets`
(src/tools/setup.py and src/tools/get_release.py), via a shallow embedding
of its components: the conditional-cache downloader, the archive extractor,
the retrying git cloner, the git-repo updater, the extension reconciler,
the release-tag selector, and the top-level process boundary.
-/

namespace Eng209

/-! ### ConditionalCacheDownloader — `download_with_etag` (setup.py lines 187-230)

The cache for a URL consists of two files: a content file (`cache_path`) and a
sibling metadata file (`meta_path`) holding the URL, ETag and Last-Modified
headers of the last non-304 download.  We model the pair of files for one URL
as a `CacheState` (a `none` field means the file does not exist), and the
network interaction as a single `HttpOutcome`: either a response object with a
status code, body and headers (the `urlopen` succeeded), or an `HTTPError`
carrying a code (the transport raised).  Every `return` statement in the
source returns `cache_path`, so the returned path is not part of the model; a
result of `.ok s` means the call returned `cache_path` leaving the pair of
files in state `s`, while `.error code` means the `HTTPError` was re-raised. -/

/-- Metadata file contents written at setup.py lines 215-221:
`{"Url": url, "ETag": ..., "Last-Modified": ...}`. -/
structure CacheMeta where
  url : String
  etag : Option String
  lastModified : Option String
deriving DecidableEq, Repr

/-- State of the two cache files for one URL: the content file at `cache_path`
and the metadata file at `meta_path`.  `none` means the file does not exist. -/
structure CacheState where
  content : Option (List Nat)
  meta : Option CacheMeta
deriving DecidableEq, Repr

/-- Outcome of `urllib.request.urlopen(request)`: either a response (status,
body bytes, ETag and Last-Modified headers) or an `HTTPError` with a code. -/
inductive HttpOutcome where
  | success (status : Nat) (body : List Nat) (etag : Option String)
      (lastModified : Option String)
  | httpError (code : Nat)
deriving DecidableEq, Repr

/-- Request headers built at setup.py lines 193-200: always a User-Agent, and
the conditional headers `If-None-Match` / `If-Modified-Since` exactly when a
prior metadata file exists and carries the corresponding value. -/
def requestHeaders (meta : Option CacheMeta) : List (String × String) :=
  [("User-Agent", "Client")] ++
    (match meta with
     | none => []
     | some m =>
       (match m.etag with
        | some e => [("If-None-Match", e)]
        | none => []) ++
       (match m.lastModified with
        | some lm => [("If-Modified-Since", lm)]
        | none => []))

/-- Embedding of `download_with_etag` (setup.py lines 187-230), as a function
of the prior cache state for the URL and the network outcome.  A response with
status 304 returns the cache path untouched; any other response overwrites the
content file with the body and the metadata file with the response headers; an
`HTTPError` with code 304 also returns the cache path untouched, and any other
`HTTPError` is re-raised. -/
def download_with_etag (url : String) (s : CacheState) (o : HttpOutcome) :
    Except Nat CacheState :=
  match o with
  | .success status body etag lastModified =>
    if status = 304 then
      .ok s
    else
      .ok { content := some body
            meta := some { url := url, etag := etag, lastModified := lastModified } }
  | .httpError code =>
    if code = 304 then .ok s else .error code

/-! ### ExtensionReconciler — `manage_vscode_extensions` (setup.py lines 508-542)

Each install/uninstall is one `run(["code", ...])` call wrapped in a
`try/except CalledProcessError` that appends the extension name to a failure
list.  We model the success of each call by an oracle `ok : String → Bool`,
and record both the list of entries actually attempted (in order) and the
accumulated failure list. -/

/-- One reconciliation loop of `manage_vscode_extensions`: every entry is
attempted (first component of the result), and a failed entry is appended to
the failure accumulator (second component) instead of aborting the loop. -/
def manageLoop (ok : String → Bool) (exts : List String) :
    List String × List String :=
  exts.foldl
    (fun acc ext =>
      (acc.1 ++ [ext], if ok ext then acc.2 else acc.2 ++ [ext]))
    ([], [])

/-- Warning emitted at setup.py line 540 for a failed install. -/
def installWarning (ext : String) : String :=
  "Could not install VS Code extension " ++ ext

/-- Warning emitted at setup.py line 542 for a failed uninstall. -/
def uninstallWarning (ext : String) : String :=
  "Could not uninstall extension " ++ ext ++ " (maybe not installed)"

/-- Embedding of `manage_vscode_extensions` (setup.py lines 508-542): run the
install loop over the install list and the uninstall loop over the uninstall
list, then emit one warning per collected failure.  Result: (entries
attempted in order, warnings emitted in order). -/
def manage_vscode_extensions (installs uninstalls : List String)
    (installOk uninstallOk : String → Bool) : List String × List String :=
  let fail_install := manageLoop installOk installs
  let fail_uninstall := manageLoop uninstallOk uninstalls
  (fail_install.1 ++ fail_uninstall.1,
   fail_install.2.map installWarning ++ fail_uninstall.2.map uninstallWarning)

/-! ### Process boundary — `__main__` handler (setup.py lines 688-697) -/

/-- How the call to `main()` ends, as seen by the `try/except` of the
`__main__` block. -/
inductive MainOutcome where
  | normal
  | keyboardInterrupt
  | systemExit (code : Nat)
  | exception (msg : String)
deriving DecidableEq, Repr

/-- Embedding of the `__main__` handler (setup.py lines 688-697): result is
(process exit code, critical log messages emitted by the handler).  Normal
completion falls through (exit 0); `KeyboardInterrupt` logs `"\rInterrupted"`
and falls through (exit 0); `SystemExit` is re-raised with its code;
any other exception logs `"Error: <e>"` and exits 1. -/
def mainEntry : MainOutcome → Nat × List String
  | .normal => (0, [])
  | .keyboardInterrupt => (0, ["\rInterrupted"])
  | .systemExit code => (code, [])
  | .exception msg => (1, ["Error: " ++ msg])

/-! ### Substring helper (for Python's `in` on strings and `.lower()`) -/

/-- Python's `pat in s` substring test. -/
def strContains (s pat : String) : Bool :=
  (List.range (s.toList.length + 1)).any
    (fun i => pat.toList.isPrefixOf (s.toList.drop i))

/-- Python's `s.lower()` (ASCII-faithful): lowercase every character. -/
def pyLower (s : String) : String :=
  (s.toList.map Char.toLower).asString

/-! ### ArchiveExtractor — `extract_archive` (setup.py lines 241-281)

Paths are modelled as lists of components (a Python path string split on
`"/"`, empty components dropped), and the filesystem as a partial map from
normalized absolute paths to file contents.  A zip member carries its path,
its `is_dir()` flag and its bytes.  `root_prefix` is the first component of
the first member's path; each non-directory member is written to
`os.path.join(extract_to, os.path.relpath(member.filename, root_prefix))`
when `overwrite` is set, the target does not exist, or the member's relative
path is in the `force_overwrite` set — otherwise it is skipped.
`os.path.relpath` is embedded for paths that stay below the working
directory: normalize both paths, drop the common component-wise front, and
prepend one `".."` per remaining component of the start path. -/

/-- Filesystem as a partial map from normalized paths (component lists) to
file contents; `none` means no file at that path. -/
def Fs : Type := List String → Option (List Nat)

/-- Writing one file: the map updated at the target path. -/
def fsWrite (fs : Fs) (p : List String) (data : List Nat) : Fs :=
  fun q => if q = p then some data else fs q

/-- One member of the zip archive: its path components, its `is_dir()` flag,
and the bytes `zip_ref.read(member)` yields. -/
structure ZipMember where
  path : List String
  isDir : Bool
  data : List Nat
deriving DecidableEq, Repr

/-- POSIX path normalization on component lists (as `os.path.abspath` does
below the working directory): drop empty and `"."` components, let `".."`
remove the preceding component. -/
def posixNorm (p : List String) : List String :=
  p.foldl
    (fun acc c =>
      if c = "" ∨ c = "." then acc
      else if c = ".." then acc.dropLast
      else acc ++ [c])
    []

/-- Length of the longest common component-wise front of two paths. -/
def commonLen : List String → List String → Nat
  | a :: as, b :: bs => if a = b then commonLen as bs + 1 else 0
  | _, _ => 0

/-- Embedding of `os.path.relpath(path, start)` for relative POSIX paths that
do not escape the working directory: normalize both, drop the common front,
and climb out of the remaining components of `start` with `".."`. -/
def relpath (path start : List String) : List String :=
  List.replicate ((posixNorm start).length - commonLen (posixNorm path) (posixNorm start)) ".." ++
    (posixNorm path).drop (commonLen (posixNorm path) (posixNorm start))

/-- Target path of a member (setup.py lines 265-266):
`os.path.join(extract_to, os.path.relpath(member.filename, root_prefix))`,
normalized as the operating system resolves it on `open`. -/
def memberTarget (extract_to : List String) (root : String) (m : ZipMember) :
    List String :=
  posixNorm (extract_to ++ relpath m.path [root])

/-- Loop body of `extract_archive` (setup.py lines 261-277) for one member:
directory entries are skipped; a file member is written exactly when
`overwrite` is set, or no file exists at the target, or its relative path is
in the `force_overwrite` set. -/
def extractStep (extract_to : List String) (overwrite : Bool)
    (force_overwrite : List (List String)) (root : String) (fs : Fs)
    (m : ZipMember) : Fs :=
  if m.isDir then fs
  else
    if overwrite = true ∨ fs (memberTarget extract_to root m) = none ∨
        relpath m.path [root] ∈ force_overwrite then
      fsWrite fs (memberTarget extract_to root m) m.data
    else fs

/-- The member loop of `extract_archive`, folded over all members. -/
def extractMembers (members : List ZipMember) (extract_to : List String)
    (overwrite : Bool) (force_overwrite : List (List String)) (root : String)
    (fs : Fs) : Fs :=
  members.foldl (extractStep extract_to overwrite force_overwrite root) fs

/-- Embedding of `extract_archive` (setup.py lines 241-281).  `members[0]` is
indexed unconditionally at line 257 to compute `root_prefix`, so an empty
archive raises `IndexError` before anything is written; otherwise the member
loop runs over the filesystem. -/
def extract_archive (members : List ZipMember) (extract_to : List String)
    (overwrite : Bool) (force_overwrite : List (List String)) (fs : Fs) :
    Except String Fs :=
  match members with
  | [] => .error "IndexError: list index out of range"
  | m0 :: _ =>
    .ok (extractMembers members extract_to overwrite force_overwrite
          (m0.path.headD "") fs)

/-! ### RetryingGitCloner — `git_clone_with_retries` (setup.py lines 284-307)

The loop runs `git clone` while `time.time() - start < timeout`, returning on
the first successful attempt and sleeping 1 second after each failed one; on
loop exit it raises exactly when `dest` does not exist.  We model time as a
number of elapsed seconds, and each attempt by whether the subprocess
succeeds, whether it leaves a (partial or pre-existing) destination behind,
and how many seconds it takes.  The loop is embedded with a structural fuel
argument: a failed iteration advances the clock by `duration + 1 ≥ 1`
seconds, so `timeout + 1` units of fuel can only run out once
`elapsed ≥ timeout`, where the fuel-exhausted base case returns exactly what
the loop-exit branch returns — theorems carry the invariant
`timeout ≤ elapsed + fuel`. -/

/-- One `git clone` attempt: whether it succeeds, whether a destination
directory exists after it (pre-existing or partially created), and how many
seconds the attempt takes. -/
structure CloneAttempt where
  succeeds : Bool
  leavesDest : Bool
  duration : Nat
deriving DecidableEq, Repr

/-- Result of the clone component: whether the `RuntimeError` was raised, the
elapsed seconds on return, and whether `dest` exists on return. -/
structure CloneResult where
  raised : Bool
  elapsed : Nat
  destExists : Bool
deriving DecidableEq, Repr

/-- The retry loop of `git_clone_with_retries` (setup.py lines 291-307): while
the elapsed time is below `timeout`, run attempt `i`; on success return at
once (a successful clone makes `dest` exist); on failure sleep one second and
retry.  On loop exit, raise exactly when `dest` does not exist. -/
def git_clone_loop (attempts : Nat → CloneAttempt) (timeout : Nat) :
    Nat → Nat → Nat → Bool → CloneResult
  | 0, _, elapsed, dest => ⟨!dest, elapsed, dest⟩
  | fuel + 1, i, elapsed, dest =>
    if elapsed < timeout then
      if (attempts i).succeeds then
        ⟨false, elapsed + (attempts i).duration, true⟩
      else
        git_clone_loop attempts timeout fuel (i + 1)
          (elapsed + (attempts i).duration + 1) (dest || (attempts i).leavesDest)
    else ⟨!dest, elapsed, dest⟩

/-- Embedding of `git_clone_with_retries` (setup.py lines 284-307), starting
the clock at zero with `destInit` recording whether `dest` already exists. -/
def git_clone_with_retries (attempts : Nat → CloneAttempt) (timeout : Nat)
    (destInit : Bool) : CloneResult :=
  git_clone_loop attempts timeout (timeout + 1) 0 0 destInit

/-- An attempt stream in which every attempt fails instantly but leaves a
partially-created destination directory behind. -/
def failLeaveAttempts : Nat → CloneAttempt :=
  fun _ => ⟨false, true, 0⟩

/-! ### GitRepoUpdater — update sequence in `main` (setup.py lines 608-651)

The update sequence issues git commands in a fixed order; every command but
`git stash pop` runs with `check=True` and so raises `CalledProcessError` on
failure, aborting the remaining steps; `git stash pop` runs with
`check=False` and its captured stdout/stderr are scanned (lowercased) for the
substring `"conflict"`, raising a `RuntimeError` with a conflict-specific
message if found.  The surrounding `try/except` logs `"Update failed: <e>"`
plus a fixed advice line and falls through, so the pipeline continues.  We
model the oracle of command outcomes, the trace of git commands issued (the
vocabulary includes `stashDrop`, which the source never issues), the raised
exception message, and the logged error lines. -/

/-- Vocabulary of git commands for the update sequence. -/
inductive GitCmd where
  | stashPush
  | fetchTags
  | fetchOrigin
  | revParse
  | resetHard (branch : String)
  | stashPop
  | stashDrop
deriving DecidableEq, Repr

/-- Outcomes of the subprocess calls of the update sequence: success of each
`check=True` command, the captured branch name of `git rev-parse` (`none`
models a `CalledProcessError`), and the captured output of `git stash pop`. -/
structure GitOutcomes where
  stashPushOk : Bool
  fetchTagsOk : Bool
  fetchOriginOk : Bool
  revParseOut : Option String
  resetOk : Bool
  popStdout : String
  popStderr : String

/-- The conflict test of setup.py lines 638-641: `"conflict"` occurs in the
lowercased stdout or stderr of `git stash pop`. -/
def conflictDetected (o : GitOutcomes) : Bool :=
  strContains (pyLower o.popStdout) "conflict" ||
    strContains (pyLower o.popStderr) "conflict"

/-- Message of the `RuntimeError` raised at setup.py lines 642-644. -/
def mergeConflictMsg : String :=
  "Merge conflict occurred while applying stashed changes"

/-- Advice line logged at setup.py lines 647-649. -/
def stashAdviceMsg : String :=
  "Your local changes may still be stashed. Resolve conflicts manually if needed."

/-- Embedding of the update sequence (setup.py lines 612-644): result is the
trace of git commands issued and the raised exception message, if any. -/
def updateProject (o : GitOutcomes) : List GitCmd × Option String :=
  if o.stashPushOk then
    if o.fetchTagsOk then
      if o.fetchOriginOk then
        match o.revParseOut with
        | some branch =>
          if o.resetOk then
            if conflictDetected o then
              ([.stashPush, .fetchTags, .fetchOrigin, .revParse,
                .resetHard branch, .stashPop], some mergeConflictMsg)
            else
              ([.stashPush, .fetchTags, .fetchOrigin, .revParse,
                .resetHard branch, .stashPop], none)
          else
            ([.stashPush, .fetchTags, .fetchOrigin, .revParse,
              .resetHard branch], some "git reset --hard failed")
        | none =>
          ([.stashPush, .fetchTags, .fetchOrigin, .revParse],
            some "git rev-parse --abbrev-ref HEAD failed")
      else ([.stashPush, .fetchTags, .fetchOrigin], some "git fetch origin failed")
    else ([.stashPush, .fetchTags], some "git fetch --tags failed")
  else ([.stashPush], some "git stash push failed")

/-- The `try/except` around the update sequence (setup.py lines 612-649): an
exception is caught, `"Update failed: <e>"` and the advice line are logged,
and execution continues — the result is the command trace plus the logged
error lines rather than a propagated exception. -/
def updateProjectLogged (o : GitOutcomes) : List GitCmd × List String :=
  match updateProject o with
  | (trace, none) => (trace, [])
  | (trace, some e) => (trace, ["Update failed: " ++ e, stashAdviceMsg])

/-! ### Release selection — `parse_tag` and `select_latest_matching_release`
(get_release.py lines 33-57)

`parse_tag` implements the anchored regex `^(v\d+(?:\.\d+){0,2})(?:-(.+))?$`:
a leading `v`, one to three dot-separated digit groups, and an optional
nonempty label after a dash.  `select_latest_matching_release` keeps the
releases whose tag parses, passes the optional version-prefix test
(`str.startswith`) and the optional label test (`re.match(label_regex, label)`
is abstracted as a predicate on the label, instantiated with a literal-prefix
test for regexes without metacharacters), parses the numeric version
(`packaging.version.Version` on digit-only dotted strings never raises
`InvalidVersion`, and its comparison key is the release tuple with trailing
zeros stripped, compared lexicographically), and returns the first maximal
element, as Python's `max` does. -/

/-- A GitHub release as the selection logic sees it: its `tag_name`. -/
structure Release where
  tag_name : String
deriving DecidableEq, Repr

/-- Consume up to `n` repetitions of `"." ++ digits` (the `(?:\.\d+){0,2}`
part of the tag regex), returning the consumed characters and the rest. -/
def dotGroups : Nat → List Char → List Char × List Char
  | 0, r => ([], r)
  | n + 1, r =>
    match r with
    | '.' :: r' =>
      match List.span Char.isDigit r' with
      | ([], _) => ([], r)
      | (ds, r'') =>
        let g := dotGroups n r''
        ('.' :: ds ++ g.1, g.2)
    | _ => ([], r)

/-- Embedding of `parse_tag` (get_release.py lines 33-37): the version part
(with its leading `v`) and the optional label, or `(none, none)` when the tag
does not match the pattern. -/
def parse_tag (tag : String) : Option String × Option String :=
  match tag.toList with
  | 'v' :: rest =>
    (match List.span Char.isDigit rest with
     | ([], _) => (none, none)
     | (d1, r1) =>
       match dotGroups 2 r1 with
       | (groups, r) =>
         match r with
         | [] => (some ('v' :: d1 ++ groups).asString, none)
         | '-' :: lab =>
           if lab = [] then (none, none)
           else (some ('v' :: d1 ++ groups).asString, some lab.asString)
         | _ => (none, none))
  | _ => (none, none)

/-- Split a character list on `'.'`, as `str.split(".")` does. -/
def splitDots : List Char → List (List Char)
  | [] => [[]]
  | c :: cs =>
    match splitDots cs with
    | [] => [[c]]
    | g :: gs => if c = '.' then [] :: g :: gs else (c :: g) :: gs

/-- Numeric value of a digit group. -/
def digitsToNat (ds : List Char) : Nat :=
  ds.foldl (fun acc c => acc * 10 + (c.toNat - 48)) 0

/-- Release tuple of `Version(version_tag[1:])`: the dot-separated digit
groups as numbers. -/
def parseVersionRelease (version_tag : String) : List Nat :=
  (splitDots (version_tag.toList.drop 1)).map digitsToNat

/-- Comparison key of `packaging.version.Version` for a plain numeric
release: the release tuple with trailing zeros stripped. -/
def versionKey (release : List Nat) : List Nat :=
  (release.reverse.dropWhile (fun n => n = 0)).reverse

/-- Python tuple `<` on number tuples (lexicographic, a strict front is
smaller). -/
def lexLt : List Nat → List Nat → Bool
  | [], [] => false
  | [], _ :: _ => true
  | _ :: _, [] => false
  | x :: xs, y :: ys =>
    if x < y then true else if x = y then lexLt xs ys else false

/-- Strict version order of `packaging.version.Version` on plain numeric
releases. -/
def versionLt (a b : List Nat) : Bool :=
  lexLt (versionKey a) (versionKey b)

/-- The `version_tag.startswith(version_prefix)` filter (absent filter passes
everything). -/
def pfxOk (version_pfx : Option String) (version_tag : String) : Bool :=
  match version_pfx with
  | none => true
  | some p => p.toList.isPrefixOf version_tag.toList

/-- The `re.match(label_regex, label)` filter (absent filter passes
everything; a present filter rejects label-less tags and applies the match
predicate to the label). -/
def labelOk (label_match : Option (String → Bool)) (label : Option String) :
    Bool :=
  match label_match with
  | none => true
  | some f =>
    match label with
    | none => false
    | some l => f l

/-- One iteration of the selection loop (get_release.py lines 42-54): the
version/release pair appended to `matches`, or `none` when one of the
`continue` branches fires. -/
def selectStep (version_pfx : Option String)
    (label_match : Option (String → Bool)) (r : Release) :
    Option (List Nat × Release) :=
  match parse_tag r.tag_name with
  | (some version_tag, label) =>
    if pfxOk version_pfx version_tag && labelOk label_match label then
      some (parseVersionRelease version_tag, r)
    else none
  | (none, _) => none

/-- The `matches` list built by the selection loop, in release order. -/
def select_matches (releases : List Release) (version_pfx : Option String)
    (label_match : Option (String → Bool)) : List (List Nat × Release) :=
  releases.foldl
    (fun acc r =>
      match selectStep version_pfx label_match r with
      | some m => acc ++ [m]
      | none => acc)
    []

/-- Python's `max(matches, key=lambda x: x[0])` on a nonempty list: the first
element whose key no later element strictly exceeds. -/
def maxByVersion : List (List Nat × Release) → Option (List Nat × Release)
  | [] => none
  | m :: ms =>
    some (ms.foldl (fun best x => if versionLt best.1 x.1 then x else best) m)

/-- Embedding of `select_latest_matching_release` (get_release.py lines
40-57). -/
def select_latest_matching_release (releases : List Release)
    (version_pfx : Option String) (label_match : Option (String → Bool)) :
    Option Release :=
  match maxByVersion (select_matches releases version_pfx label_match) with
  | none => none
  | some m => some m.2

/-- Eligibility as the spec states it: the tag matches the strict pattern and
passes the optional version-prefix and label filters. -/
def eligible (version_pfx : Option String)
    (label_match : Option (String → Bool)) (r : Release) : Bool :=
  match parse_tag r.tag_name with
  | (some version_tag, label) =>
    pfxOk version_pfx version_tag && labelOk label_match label
  | (none, _) => false

/-- Parsed release tuple of an eligible release's tag. -/
def releaseVersion (r : Release) : List Nat :=
  match parse_tag r.tag_name with
  | (some version_tag, _) => parseVersionRelease version_tag
  | (none, _) => []

/-! ## Theorems -/

/-- Helper: closed form of `manageLoop` — every entry is attempted, and the
failures are exactly the entries the oracle rejects, in order. -/
theorem manageLoop_eq (ok : String → Bool) (exts : List String) :
    manageLoop ok exts = (exts, exts.filter (fun e => !(ok e))) := by
  have key : ∀ (l : List String) (t f : List String),
      l.foldl (fun acc ext =>
        (acc.1 ++ [ext], if ok ext then acc.2 else acc.2 ++ [ext])) (t, f) =
      (t ++ l, f ++ l.filter (fun e => !(ok e))) := by
    intro l
    induction l with
    | nil => intro t f; simp
    | cons x xs ih =>
      intro t f
      simp only [List.foldl_cons, List.filter_cons]
      by_cases hx : ok x
      · simp [hx, ih, List.append_assoc]
      · simp [hx, ih, List.append_assoc]
  simpa using key exts [] []

/-- C7: extension reconciliation processes every desired-install and
desired-uninstall entry regardless of which entries fail (the attempted list
is always the full list of entries), and after processing all entries it
emits exactly one warning per failed name: the warning list is exactly one
install warning per rejected install entry followed by one uninstall warning
per rejected uninstall entry, in order. -/
theorem C7_extensions_best_effort (installs uninstalls : List String)
    (installOk uninstallOk : String → Bool) :
    (manage_vscode_extensions installs uninstalls installOk uninstallOk).1 =
      installs ++ uninstalls ∧
    (manage_vscode_extensions installs uninstalls installOk uninstallOk).2 =
      (installs.filter (fun e => !(installOk e))).map installWarning ++
      (uninstalls.filter (fun e => !(uninstallOk e))).map uninstallWarning := by
  unfold manage_vscode_extensions
  rw [manageLoop_eq, manageLoop_eq]
  exact ⟨rfl, rfl⟩

/-- C8: the process exits non-zero (code 1) on an unrecovered fatal error
after emitting exactly one top-level message `"Error: <e>"`; it exits zero
with no handler message on normal completion; and a handled interrupt exits
zero with a single distinct message containing `"Interrupted"` and not the
generic `"Error:"` marker. -/
theorem C8_process_exit_codes :
    (∀ msg : String,
      (mainEntry (.exception msg)).1 = 1 ∧ (mainEntry (.exception msg)).1 ≠ 0 ∧
      (mainEntry (.exception msg)).2 = ["Error: " ++ msg]) ∧
    mainEntry .normal = (0, []) ∧
    ((mainEntry .keyboardInterrupt).1 = 0 ∧
      (mainEntry .keyboardInterrupt).2 = ["\rInterrupted"] ∧
      strContains "\rInterrupted" "Interrupted" = true ∧
      strContains "\rInterrupted" "Error:" = false) := by
  refine ⟨fun msg => ⟨rfl, by simp [mainEntry], rfl⟩, rfl, rfl, rfl, by decide, by decide⟩

/-- C1: when a prior CacheEntry (metadata file) exists, a 304 response —
returned normally or surfaced as an `HTTPError` — makes `download_with_etag`
return the cached path with content and metadata files unchanged, and any
other success response overwrites both files with the new response's body and
headers. -/
theorem C1_download_304_cache (url : String) (s : CacheState)
    (hmeta : s.meta.isSome) :
    (∀ body etag lastModified,
      download_with_etag url s (.success 304 body etag lastModified) = .ok s) ∧
    download_with_etag url s (.httpError 304) = .ok s ∧
    (∀ status body etag lastModified, status ≠ 304 →
      download_with_etag url s (.success status body etag lastModified) =
        .ok { content := some body
              meta := some { url := url, etag := etag, lastModified := lastModified } }) := by
  refine ⟨fun body etag lastModified => rfl, rfl, ?_⟩
  intro status body etag lastModified h
  simp [download_with_etag, h]

/-- C1 witness at a concrete cache state and responses. -/
theorem C1_download_304_cache_witness :
    (download_with_etag "u"
        ⟨some [1, 2], some ⟨"u", some "E1", none⟩⟩ (.httpError 304) =
      .ok ⟨some [1, 2], some ⟨"u", some "E1", none⟩⟩) ∧
    (download_with_etag "u"
        ⟨some [1, 2], some ⟨"u", some "E1", none⟩⟩ (.success 200 [3] (some "E2") none) =
      .ok ⟨some [3], some ⟨"u", some "E2", none⟩⟩) := by
  have h := C1_download_304_cache "u"
    ⟨some [1, 2], some ⟨"u", some "E1", none⟩⟩ (by decide)
  exact ⟨h.2.1, h.2.2 200 [3] (some "E2") none (by decide)⟩

/-- C10: a 304 response (direct or surfaced as an `HTTPError`) for a URL with
no prior metadata file — a case in which only the User-Agent header was sent —
returns the cache path without creating any content or metadata file; and for
any cache state whose content file only exists when its metadata file does,
the returned path names an existing content file only when a prior CacheEntry
(metadata file) existed or the outcome was a non-304 success response. -/
theorem C10_download_304_no_cache (url : String) (s : CacheState)
    (hmeta : s.meta = none) :
    requestHeaders s.meta = [("User-Agent", "Client")] ∧
    (∀ body etag lastModified,
      download_with_etag url s (.success 304 body etag lastModified) = .ok s) ∧
    download_with_etag url s (.httpError 304) = .ok s ∧
    (∀ (o : HttpOutcome) (s' : CacheState),
      (s.content.isSome → s.meta.isSome) →
      download_with_etag url s o = .ok s' → s'.content.isSome →
      s.meta.isSome ∨
        ∃ status body etag lastModified,
          o = .success status body etag lastModified ∧ status ≠ 304) := by
  refine ⟨by rw [hmeta]; rfl, fun body etag lastModified => rfl, rfl, ?_⟩
  intro o s' hinv hok hcontent
  match o with
  | .success status body etag lastModified =>
    by_cases h304 : status = 304
    · subst h304
      simp [download_with_etag] at hok
      rw [← hok] at hcontent
      exact Or.inl (hinv hcontent)
    · exact Or.inr ⟨status, body, etag, lastModified, rfl, h304⟩
  | .httpError code =>
    by_cases h304 : code = 304
    · subst h304
      simp [download_with_etag] at hok
      rw [← hok] at hcontent
      exact Or.inl (hinv hcontent)
    · simp [download_with_etag, h304] at hok

/-- C10 witness: fresh cache state (no files), 304 surfaced as an error. -/
theorem C10_download_304_no_cache_witness :
    download_with_etag "u" ⟨none, none⟩ (.httpError 304) = .ok ⟨none, none⟩ ∧
    requestHeaders (CacheState.mk none none).meta = [("User-Agent", "Client")] := by
  have h := C10_download_304_no_cache "u" ⟨none, none⟩ rfl
  exact ⟨h.2.2.1, h.1⟩

/-- Helper: a component is kept as-is by normalization. -/
def cleanComp (c : String) : Prop :=
  c ≠ "" ∧ c ≠ "." ∧ c ≠ ".."

/-- Helper: normalization leaves a path of clean components unchanged. -/
theorem posixNorm_clean (p : List String) (h : ∀ c ∈ p, cleanComp c) :
    posixNorm p = p := by
  have key : ∀ (q : List String) (acc : List String), (∀ c ∈ q, cleanComp c) →
      q.foldl
        (fun acc c =>
          if c = "" ∨ c = "." then acc
          else if c = ".." then acc.dropLast
          else acc ++ [c]) acc = acc ++ q := by
    intro q
    induction q with
    | nil => intro acc _; simp
    | cons c cs ih =>
      intro acc hq
      obtain ⟨h1, h2, h3⟩ := hq c (List.mem_cons_self c cs)
      simp only [List.foldl_cons]
      rw [if_neg (fun hcc => hcc.elim h1 h2), if_neg h3]
      rw [ih (acc ++ [c]) (fun d hd => hq d (List.mem_cons_of_mem c hd))]
      simp
  simpa using key p [] h

/-- Helper: for a clean path below the shared root, `relpath` strips exactly
the root component. -/
theorem relpath_root (root : String) (rest : List String)
    (h : ∀ c ∈ root :: rest, cleanComp c) :
    relpath (root :: rest) [root] = rest := by
  have hne : posixNorm (root :: rest) = root :: rest := posixNorm_clean _ h
  have hroot : posixNorm [root] = [root] :=
    posixNorm_clean _ (by
      intro c hc
      rw [List.mem_singleton] at hc
      exact hc ▸ h root (List.mem_cons_self root rest))
  have hcl : commonLen (root :: rest) [root] = 1 := by
    simp [commonLen]
  simp [relpath, hne, hroot, hcl]

/-- Helper: the extraction loop body changes the filesystem at most at the
member's target path. -/
theorem extractStep_apply_ne (extract_to : List String) (overwrite : Bool)
    (force_overwrite : List (List String)) (root : String) (fs : Fs)
    (m : ZipMember) (p : List String)
    (hp : p ≠ memberTarget extract_to root m) :
    extractStep extract_to overwrite force_overwrite root fs m p = fs p := by
  cases hd : m.isDir
  · by_cases hc : overwrite = true ∨ fs (memberTarget extract_to root m) = none ∨
        relpath m.path [root] ∈ force_overwrite
    · simp [extractStep, hd, hc, fsWrite, hp]
    · simp [extractStep, hd, hc]
  · simp [extractStep, hd]

/-- C2: a file member of the archive is written to its target path if and
only if the `overwrite` flag is set, or no file exists at the target, or the
member's relative path is in the `force_overwrite` set (first two conjuncts:
the single-member loop body writes the member's bytes exactly under that
condition and otherwise leaves the filesystem unchanged); consequently an
existing file that no member is forced onto survives the whole extraction
with its content intact when `overwrite` is not set (third conjunct). -/
theorem C2_extract_overwrite_policy (extract_to : List String)
    (overwrite : Bool) (force_overwrite : List (List String)) (root : String) :
    (∀ (fs : Fs) (m : ZipMember), m.isDir = false →
      (overwrite = true ∨ fs (memberTarget extract_to root m) = none ∨
        relpath m.path [root] ∈ force_overwrite) →
      extractStep extract_to overwrite force_overwrite root fs m
        (memberTarget extract_to root m) = some m.data) ∧
    (∀ (fs : Fs) (m : ZipMember), m.isDir = false →
      ¬(overwrite = true ∨ fs (memberTarget extract_to root m) = none ∨
        relpath m.path [root] ∈ force_overwrite) →
      extractStep extract_to overwrite force_overwrite root fs m = fs) ∧
    (∀ (members : List ZipMember) (fs : Fs) (p : List String) (c : List Nat),
      fs p = some c → overwrite = false →
      (∀ m ∈ members, memberTarget extract_to root m = p →
        relpath m.path [root] ∉ force_overwrite) →
      extractMembers members extract_to overwrite force_overwrite root fs p =
        some c) := by
  refine ⟨?_, ?_, ?_⟩
  · intro fs m hd hc
    simp [extractStep, hd, hc, fsWrite]
  · intro fs m hd hc
    simp [extractStep, hd, hc]
  · intro members
    induction members with
    | nil => intro fs p c hp _ _; exact hp
    | cons m ms ih =>
      intro fs p c hp hov hforce
      have hstep : extractStep extract_to overwrite force_overwrite root fs m p =
          some c := by
        by_cases hpt : p = memberTarget extract_to root m
        · cases hd : m.isDir
          · have hc : ¬(overwrite = true ∨
                fs (memberTarget extract_to root m) = none ∨
                relpath m.path [root] ∈ force_overwrite) := by
              rintro (h | h | h)
              · rw [h] at hov; cases hov
              · rw [← hpt, hp] at h; cases h
              · exact hforce m (List.mem_cons_self m ms) hpt.symm h
            simpa [extractStep, hd, hc] using hp
          · simpa [extractStep, hd] using hp
        · rw [extractStep_apply_ne extract_to overwrite force_overwrite root fs m p hpt]
          exact hp
      have := ih (extractStep extract_to overwrite force_overwrite root fs m) p c
        hstep hov (fun m' hm' => hforce m' (List.mem_cons_of_mem m hm'))
      simpa [extractMembers, List.foldl_cons] using this

/-- C2 witness: an existing file not targeted by any member survives
extraction without `overwrite` byte-for-byte. -/
theorem C2_extract_overwrite_policy_witness :
    extractMembers [⟨["r", "b.txt"], false, [7]⟩] ["t"] false [["u.py"]] "r"
      (fun q => if q = ["t", "a.txt"] then some [1] else none)
      ["t", "a.txt"] = some [1] :=
  (C2_extract_overwrite_policy ["t"] false [["u.py"]] "r").2.2
    [⟨["r", "b.txt"], false, [7]⟩]
    (fun q => if q = ["t", "a.txt"] then some [1] else none)
    ["t", "a.txt"] [1] (by decide) rfl (by decide)

/-- C6 counterexample: in an archive whose members do not share a single root
folder, the member `b/y` is written outside the target directory
`["home", "t"]` (at `["home", "b", "y"]`), because `os.path.relpath` against
the first entry's root `a` produces a `../`-path rather than stripping a
shared root; so extraction does not guarantee that every written path lies
inside the target directory. -/
theorem C6_counterexample :
    (match extract_archive [⟨["a", "x"], false, [1]⟩, ⟨["b", "y"], false, [2]⟩]
        ["home", "t"] false [] (fun _ => none) with
     | .ok fs => fs ["home", "b", "y"]
     | .error _ => none) = some [2] ∧
    ¬(["home", "t"] <+: (["home", "b", "y"] : List String)) := by
  constructor
  · decide
  · decide

/-- C6 (amended): for an archive following the single-root convention — every
file member's path starts with the root component of the first entry, has at
least one further clean component, and the target directory is a normalized
path — extraction places each file member under the target directory at its
path with the root prefix stripped, never extracts directory entries, and
every path whose content the extraction changes lies inside the target
directory. -/
theorem C6_extract_single_root (members : List ZipMember) (m0 : ZipMember)
    (ms : List ZipMember) (extract_to : List String) (overwrite : Bool)
    (force_overwrite : List (List String)) (root : String) (fs : Fs)
    (hmem : members = m0 :: ms) (hroot : root = m0.path.headD "")
    (hclean_to : ∀ c ∈ extract_to, cleanComp c)
    (hshape : ∀ m ∈ members, m.isDir = false →
      ∃ rest, m.path = root :: rest ∧ rest ≠ [] ∧
        ∀ c ∈ m.path, cleanComp c) :
    extract_archive members extract_to overwrite force_overwrite fs =
      .ok (extractMembers members extract_to overwrite force_overwrite root fs) ∧
    (∀ m ∈ members, m.isDir = false →
      memberTarget extract_to root m = extract_to ++ m.path.tail) ∧
    (∀ (fs' : Fs) (m : ZipMember), m.isDir = true →
      extractStep extract_to overwrite force_overwrite root fs' m = fs') ∧
    (∀ p : List String,
      extractMembers members extract_to overwrite force_overwrite root fs p ≠
        fs p →
      extract_to <+: p) := by
  have htarget : ∀ m ∈ members, m.isDir = false →
      memberTarget extract_to root m = extract_to ++ m.path.tail := by
    intro m hm hd
    obtain ⟨rest, hpath, _, hclean⟩ := hshape m hm hd
    unfold memberTarget
    rw [hpath] at hclean ⊢
    rw [relpath_root root rest hclean]
    simp only [List.tail_cons]
    exact posixNorm_clean _ (by
      intro c hc
      rcases List.mem_append.mp hc with h | h
      · exact hclean_to c h
      · exact hclean c (List.mem_cons_of_mem root h))
  refine ⟨by rw [hmem, hroot]; rfl, htarget, ?_, ?_⟩
  · intro fs' m hd
    funext q
    simp [extractStep, hd]
  · have frame : ∀ (l : List ZipMember) (g : Fs) (p : List String),
        (∀ m ∈ l, m.isDir = false →
          memberTarget extract_to root m = extract_to ++ m.path.tail) →
        l.foldl (extractStep extract_to overwrite force_overwrite root) g p ≠
          g p →
        extract_to <+: p := by
      intro l
      induction l with
      | nil => intro g p _ hne; exact absurd rfl hne
      | cons m l' ih =>
        intro g p htgt hne
        simp only [List.foldl_cons] at hne
        by_cases hstep :
            extractStep extract_to overwrite force_overwrite root g m p = g p
        · exact ih (extractStep extract_to overwrite force_overwrite root g m) p
            (fun m' hm' => htgt m' (List.mem_cons_of_mem m hm'))
            (by rw [hstep]; exact hne)
        · by_cases hpt : p = memberTarget extract_to root m
          · have hdir : m.isDir = false := by
              by_contra hdt
              apply hstep
              rw [Bool.not_eq_false] at hdt
              simp [extractStep, hdt]
            rw [htgt m (List.mem_cons_self m l') hdir] at hpt
            exact hpt ▸ ⟨m.path.tail, rfl⟩
          · exact absurd
              (extractStep_apply_ne extract_to overwrite force_overwrite root g
                m p hpt) hstep
    intro p hne
    exact frame members fs p htarget hne

/-- C6 witness: a single-root archive with a directory entry and one file;
the file lands at the target directory with the root stripped. -/
theorem C6_extract_single_root_witness :
    memberTarget ["h"] "a" ⟨["a", "x"], false, [5]⟩ = ["h", "x"] := by
  have h := C6_extract_single_root
    [⟨["a"], true, []⟩, ⟨["a", "x"], false, [5]⟩] ⟨["a"], true, []⟩
    [⟨["a", "x"], false, [5]⟩] ["h"] false [] "a" (fun _ => none) rfl rfl
    (by intro c hc; rw [List.mem_singleton] at hc; subst hc; exact ⟨by decide, by decide, by decide⟩)
    (by
      intro m hm hd
      rcases List.mem_cons.mp hm with h1 | h1
      · subst h1; cases hd
      · rw [List.mem_singleton] at h1
        subst h1
        exact ⟨["x"], rfl, by decide, by
          intro c hc
          fin_cases hc <;> exact ⟨by decide, by decide, by decide⟩⟩)
  exact h.2.1 ⟨["a", "x"], false, [5]⟩ (by simp) rfl

/-- C9: the implicit root prefix is computed by indexing the first archive
member unconditionally, so extraction of an empty archive raises an
exception with the filesystem untouched (the error result carries no
writes), while for every non-empty archive the prefix computation succeeds
and extraction returns a filesystem. -/
theorem C9_extract_empty_archive (extract_to : List String) (overwrite : Bool)
    (force_overwrite : List (List String)) (fs : Fs) :
    extract_archive [] extract_to overwrite force_overwrite fs =
      .error "IndexError: list index out of range" ∧
    (∀ members : List ZipMember, members ≠ [] →
      ∃ fs', extract_archive members extract_to overwrite force_overwrite fs =
        .ok fs') := by
  refine ⟨rfl, ?_⟩
  intro members h
  match members with
  | m :: ms => exact ⟨_, rfl⟩

/-- C9 witness: a concrete non-empty archive extracts successfully while the
empty archive raises. -/
theorem C9_extract_empty_archive_witness :
    extract_archive ([] : List ZipMember) ["t"] false [] (fun _ => none) =
      .error "IndexError: list index out of range" ∧
    ∃ fs', extract_archive [⟨["a", "x"], false, [1]⟩] ["t"] false []
      (fun _ => none) = .ok fs' := by
  have h := C9_extract_empty_archive ["t"] false [] (fun _ => none)
  exact ⟨h.1, h.2 [⟨["a", "x"], false, [1]⟩] (by simp)⟩

/-- Helper: behavior of the clone retry loop when every attempt fails, by
induction on the fuel, under the invariant that the fuel covers the remaining
time budget (each failed iteration advances the clock by at least one
second). -/
theorem git_clone_loop_all_fail (attempts : Nat → CloneAttempt)
    (timeout d : Nat) (hfail : ∀ i, (attempts i).succeeds = false)
    (hdur : ∀ i, (attempts i).duration ≤ d) :
    ∀ (fuel i elapsed : Nat) (dest : Bool),
      timeout ≤ elapsed + fuel → elapsed ≤ timeout + d →
      (git_clone_loop attempts timeout fuel i elapsed dest).raised =
        !(git_clone_loop attempts timeout fuel i elapsed dest).destExists ∧
      timeout ≤ (git_clone_loop attempts timeout fuel i elapsed dest).elapsed ∧
      (git_clone_loop attempts timeout fuel i elapsed dest).elapsed ≤
        timeout + d ∧
      (dest = false → (∀ j, (attempts j).leavesDest = false) →
        (git_clone_loop attempts timeout fuel i elapsed dest).destExists =
          false) := by
  intro fuel
  induction fuel with
  | zero =>
    intro i elapsed dest h1 h2
    refine ⟨rfl, ?_, ?_, fun h _ => h⟩
    · show timeout ≤ elapsed
      omega
    · show elapsed ≤ timeout + d
      exact h2
  | succ fuel ih =>
    intro i elapsed dest h1 h2
    by_cases hlt : elapsed < timeout
    · rw [show git_clone_loop attempts timeout (fuel + 1) i elapsed dest =
          git_clone_loop attempts timeout fuel (i + 1)
            (elapsed + (attempts i).duration + 1)
            (dest || (attempts i).leavesDest) from by
        simp [git_clone_loop, hlt, hfail i]]
      have hd := hdur i
      have step := ih (i + 1) (elapsed + (attempts i).duration + 1)
        (dest || (attempts i).leavesDest) (by omega) (by omega)
      refine ⟨step.1, step.2.1, step.2.2.1, ?_⟩
      intro hdest hleave
      exact step.2.2.2 (by simp [hdest, hleave i]) hleave
    · rw [show git_clone_loop attempts timeout (fuel + 1) i elapsed dest =
          ⟨!dest, elapsed, dest⟩ from by simp [git_clone_loop, hlt]]
      refine ⟨rfl, ?_, ?_, fun h _ => h⟩
      · show timeout ≤ elapsed
        omega
      · show elapsed ≤ timeout + d
        exact h2

/-- C4 counterexample: with every attempt failing (instantly) but leaving a
partially-created destination, the loop exits after the time budget without
raising — `raised = false` although no attempt ever succeeded — so "fails if
and only if no clone attempt completes successfully before the time budget
expires" does not hold of the code, which raises only when `dest` does not
exist on loop exit. -/
theorem C4_counterexample :
    (git_clone_with_retries failLeaveAttempts 1 false).raised = false ∧
    (git_clone_with_retries failLeaveAttempts 1 false).destExists = true ∧
    (failLeaveAttempts 0).succeeds = false := by
  exact ⟨rfl, rfl, rfl⟩

/-- C4 (amended): `git_clone_with_retries` raises exactly when the
destination does not exist on loop exit; when every attempt fails (each
taking at most `d` seconds) it returns after at least `timeout` and at most
`timeout + d` seconds — neither hanging indefinitely nor returning
near-instantly — and if additionally no failed attempt leaves a destination
behind and none pre-exists, it raises the fatal provisioning error. -/
theorem C4_clone_retry_bound (attempts : Nat → CloneAttempt)
    (timeout d : Nat) (destInit : Bool)
    (hfail : ∀ i, (attempts i).succeeds = false)
    (hdur : ∀ i, (attempts i).duration ≤ d) :
    ((git_clone_with_retries attempts timeout destInit).raised =
      !(git_clone_with_retries attempts timeout destInit).destExists) ∧
    timeout ≤ (git_clone_with_retries attempts timeout destInit).elapsed ∧
    (git_clone_with_retries attempts timeout destInit).elapsed ≤ timeout + d ∧
    (destInit = false → (∀ i, (attempts i).leavesDest = false) →
      (git_clone_with_retries attempts timeout destInit).raised = true) := by
  have h := git_clone_loop_all_fail attempts timeout d hfail hdur
    (timeout + 1) 0 0 destInit (by omega) (by omega)
  unfold git_clone_with_retries
  refine ⟨h.1, h.2.1, h.2.2.1, ?_⟩
  intro h1 h2
  rw [h.1, h.2.2.2 h1 h2]
  rfl

/-- C4 witness: an always-failing, clean attempt stream against a 2-second
budget raises, and does so with the elapsed time between 2 and 2 seconds. -/
theorem C4_clone_retry_bound_witness :
    (git_clone_with_retries (fun _ => ⟨false, false, 0⟩) 2 false).raised =
      true ∧
    2 ≤ (git_clone_with_retries (fun _ => ⟨false, false, 0⟩) 2 false).elapsed ∧
    (git_clone_with_retries (fun _ => ⟨false, false, 0⟩) 2 false).elapsed ≤
      2 + 0 := by
  have h := C4_clone_retry_bound (fun _ => ⟨false, false, 0⟩) 2 0 false
    (fun _ => rfl) (fun _ => Nat.le_refl 0)
  exact ⟨h.2.2.2 rfl (fun _ => rfl), h.2.1, h.2.2.1⟩

/-- C3: when the steps up to the hard reset succeed and the stash-pop output
contains a conflict marker, the update sequence raises the conflict-specific
error after issuing exactly the six-step command sequence; no input ever
makes it issue `git stash drop`; the surrounding handler catches the error,
logs it with its cause plus the operator-action advice, and returns
(continuing the pipeline); and the conflict case is distinguishable in the
log, whose first line contains `"Merge conflict"` while no log line of any
non-conflict run does. -/
theorem C3_update_conflict (o : GitOutcomes) (branch : String)
    (h1 : o.stashPushOk = true) (h2 : o.fetchTagsOk = true)
    (h3 : o.fetchOriginOk = true) (h4 : o.revParseOut = some branch)
    (h5 : o.resetOk = true) (hc : conflictDetected o = true) :
    updateProject o =
      ([.stashPush, .fetchTags, .fetchOrigin, .revParse, .resetHard branch,
        .stashPop], some mergeConflictMsg) ∧
    (∀ o' : GitOutcomes, GitCmd.stashDrop ∉ (updateProject o').1) ∧
    (updateProjectLogged o).2 =
      ["Update failed: " ++ mergeConflictMsg, stashAdviceMsg] ∧
    strContains ("Update failed: " ++ mergeConflictMsg) "Merge conflict" =
      true ∧
    (∀ o' : GitOutcomes, conflictDetected o' = false →
      ∀ msg ∈ (updateProjectLogged o').2,
        strContains msg "Merge conflict" = false) := by
  have hup : updateProject o =
      ([.stashPush, .fetchTags, .fetchOrigin, .revParse, .resetHard branch,
        .stashPop], some mergeConflictMsg) := by
    simp [updateProject, h1, h2, h3, h4, h5, hc]
  refine ⟨hup, ?_, ?_, by decide, ?_⟩
  · intro o'
    obtain ⟨sp, ft, fo, rp, rs, ps, pe⟩ := o'
    cases hcf : conflictDetected ⟨sp, ft, fo, rp, rs, ps, pe⟩ <;>
      cases sp <;> cases ft <;> cases fo <;> cases rs <;>
        rcases rp with _ | b <;> simp [updateProject, hcf]
  · simp [updateProjectLogged, hup]
  · intro o' hcf msg hmsg
    obtain ⟨sp, ft, fo, rp, rs, ps, pe⟩ := o'
    cases sp <;> cases ft <;> cases fo <;> cases rs <;> rcases rp with _ | b <;>
      simp [updateProjectLogged, updateProject, hcf] at hmsg <;>
      rcases hmsg with h | h <;> subst h <;> decide

/-- C3 witness: a concrete run whose `git stash pop` prints a CONFLICT line
raises the conflict-specific message and logs it distinguishably. -/
theorem C3_update_conflict_witness :
    updateProject
      ⟨true, true, true, some "main", true,
        "CONFLICT (content): Merge conflict in a.txt", ""⟩ =
      ([.stashPush, .fetchTags, .fetchOrigin, .revParse, .resetHard "main",
        .stashPop], some mergeConflictMsg) :=
  (C3_update_conflict
    ⟨true, true, true, some "main", true,
      "CONFLICT (content): Merge conflict in a.txt", ""⟩ "main"
    rfl rfl rfl rfl rfl (by decide)).1

/-- Helper: tuple `<` is irreflexive. -/
theorem lexLt_irrefl (a : List Nat) : lexLt a a = false := by
  induction a with
  | nil => rfl
  | cons x xs ih => simp [lexLt, ih]

/-- Helper: tuple `<` is transitive. -/
theorem lexLt_trans : ∀ a b c : List Nat,
    lexLt a b = true → lexLt b c = true → lexLt a c = true := by
  intro a
  induction a with
  | nil =>
    intro b c hab hbc
    cases b with
    | nil => cases hab
    | cons y ys =>
      cases c with
      | nil => cases hbc
      | cons z zs => rfl
  | cons x xs ih =>
    intro b c hab hbc
    cases b with
    | nil => cases hab
    | cons y ys =>
      cases c with
      | nil => cases hbc
      | cons z zs =>
        simp only [lexLt] at hab hbc ⊢
        by_cases hxy : x < y
        · rw [if_pos hxy] at hab
          by_cases hyz : y < z
          · rw [if_pos (by omega)]
          · rw [if_neg hyz] at hbc
            by_cases hyz2 : y = z
            · rw [if_pos (by omega)]
            · rw [if_neg hyz2] at hbc
              cases hbc
        · rw [if_neg hxy] at hab
          by_cases hxy2 : x = y
          · rw [if_pos hxy2] at hab
            by_cases hyz : y < z
            · rw [if_pos (by omega)]
            · rw [if_neg hyz] at hbc
              by_cases hyz2 : y = z
              · rw [if_pos hyz2] at hbc
                rw [if_neg (by omega), if_pos (by omega)]
                exact ih ys zs hab hbc
              · rw [if_neg hyz2] at hbc
                cases hbc
          · rw [if_neg hxy2] at hab
            cases hab

/-- Helper: tuple `<` is connected — two tuples are equal or one is strictly
below the other. -/
theorem lexLt_connex : ∀ a b : List Nat,
    a = b ∨ lexLt a b = true ∨ lexLt b a = true := by
  intro a
  induction a with
  | nil =>
    intro b
    cases b with
    | nil => exact Or.inl rfl
    | cons y ys => exact Or.inr (Or.inl rfl)
  | cons x xs ih =>
    intro b
    cases b with
    | nil => exact Or.inr (Or.inr rfl)
    | cons y ys =>
      by_cases hxy : x < y
      · exact Or.inr (Or.inl (by simp [lexLt, hxy]))
      · by_cases hyx : y < x
        · exact Or.inr (Or.inr (by simp [lexLt, hyx]))
        · have hxy2 : x = y := by omega
          subst hxy2
          rcases ih ys with he | h | h
          · exact Or.inl (by rw [he])
          · exact Or.inr (Or.inl (by simp [lexLt, h]))
          · exact Or.inr (Or.inr (by simp [lexLt, h]))

/-- Helper: the version order is transitive. -/
theorem versionLt_trans {a b c : List Nat} (hab : versionLt a b = true)
    (hbc : versionLt b c = true) : versionLt a c = true :=
  lexLt_trans _ _ _ hab hbc

/-- Helper: the version order is irreflexive. -/
theorem versionLt_irrefl (a : List Nat) : versionLt a a = false :=
  lexLt_irrefl _

/-- Helper: two versions have equal comparison keys or one is strictly below
the other. -/
theorem versionLt_connex (a b : List Nat) :
    versionKey a = versionKey b ∨ versionLt a b = true ∨
      versionLt b a = true :=
  lexLt_connex _ _

/-- Helper: versions with equal comparison keys compare equally against any
third version. -/
theorem versionLt_congr_right {b c : List Nat} (a : List Nat)
    (h : versionKey b = versionKey c) : versionLt a b = versionLt a c := by
  unfold versionLt
  rw [h]

/-- Helper: the selection-loop step keeps a release exactly when it is
eligible, pairing it with its parsed version. -/
theorem selectStep_eq (version_pfx : Option String)
    (label_match : Option (String → Bool)) (r : Release) :
    selectStep version_pfx label_match r =
      if eligible version_pfx label_match r then
        some (releaseVersion r, r)
      else none := by
  unfold selectStep eligible releaseVersion
  cases h : parse_tag r.tag_name with
  | mk vt lab =>
    cases vt with
    | none => simp
    | some v =>
      by_cases hb : pfxOk version_pfx v && labelOk label_match lab <;> simp [hb]

/-- Helper: the `matches` list is exactly the eligible releases, in order,
paired with their parsed versions. -/
theorem select_matches_eq (releases : List Release)
    (version_pfx : Option String) (label_match : Option (String → Bool)) :
    select_matches releases version_pfx label_match =
      (releases.filter (eligible version_pfx label_match)).map
        (fun r => (releaseVersion r, r)) := by
  have key : ∀ (l : List Release) (acc : List (List Nat × Release)),
      l.foldl
        (fun acc r =>
          match selectStep version_pfx label_match r with
          | some m => acc ++ [m]
          | none => acc) acc =
      acc ++ (l.filter (eligible version_pfx label_match)).map
        (fun r => (releaseVersion r, r)) := by
    intro l
    induction l with
    | nil => intro acc; simp
    | cons r rs ih =>
      intro acc
      rw [List.foldl_cons, List.filter_cons, selectStep_eq]
      cases he : eligible version_pfx label_match r
      · rw [if_neg Bool.false_ne_true, if_neg Bool.false_ne_true, ih]
      · rw [if_pos rfl, if_pos rfl, ih]
        simp
  simpa using key releases []

/-- Helper: Python's first-maximum fold returns a member of the list that no
element of the list strictly exceeds in the version order. -/
theorem foldl_max_spec (ms : List (List Nat × Release)) :
    ∀ m0 : List Nat × Release,
      (ms.foldl (fun best x => if versionLt best.1 x.1 then x else best) m0) ∈
        m0 :: ms ∧
      ∀ x ∈ m0 :: ms,
        versionLt
          (ms.foldl (fun best x => if versionLt best.1 x.1 then x else best)
            m0).1 x.1 = false := by
  induction ms with
  | nil =>
    intro m0
    refine ⟨by simp, ?_⟩
    intro x hx
    rw [List.mem_singleton] at hx
    subst hx
    exact versionLt_irrefl _
  | cons z ms ih =>
    intro m0
    simp only [List.foldl_cons]
    obtain ⟨ihmem, ihmax⟩ := ih (if versionLt m0.1 z.1 then z else m0)
    constructor
    · rcases List.mem_cons.mp ihmem with h | h
      · rw [h]
        by_cases hc : versionLt m0.1 z.1 = true
        · rw [if_pos hc]
          exact List.mem_cons_of_mem _ (List.mem_cons_self _ _)
        · rw [if_neg hc]
          exact List.mem_cons_self _ _
      · exact List.mem_cons_of_mem _ (List.mem_cons_of_mem _ h)
    · intro x hx
      have hbest := ihmax (if versionLt m0.1 z.1 then z else m0)
        (List.mem_cons_self _ _)
      rcases List.mem_cons.mp hx with hx0 | hx1
      · rw [hx0]
        by_cases hc : versionLt m0.1 z.1 = true
        · rw [if_pos hc] at hbest ⊢
          by_contra hlt
          rw [Bool.not_eq_false] at hlt
          rw [versionLt_trans hlt hc] at hbest
          cases hbest
        · rw [if_neg hc] at hbest ⊢
          exact hbest
      · rcases List.mem_cons.mp hx1 with hxz | hxm
        · rw [hxz]
          by_cases hc : versionLt m0.1 z.1 = true
          · rw [if_pos hc] at hbest ⊢
            exact hbest
          · rw [if_neg hc] at hbest ⊢
            rcases versionLt_connex m0.1 z.1 with he | h | h
            · rw [versionLt_congr_right _ he.symm]
              exact hbest
            · rw [h] at hc
              cases hc rfl
            · by_contra hlt
              rw [Bool.not_eq_false] at hlt
              rw [versionLt_trans hlt h] at hbest
              cases hbest
        · exact ihmax x (List.mem_cons_of_mem _ hxm)

/-- Helper: `max(matches, key=...)` returns `none` exactly on the empty list,
and otherwise an element no other element strictly exceeds. -/
theorem maxByVersion_spec (l : List (List Nat × Release)) :
    (maxByVersion l = none ↔ l = []) ∧
    ∀ m, maxByVersion l = some m →
      m ∈ l ∧ ∀ x ∈ l, versionLt m.1 x.1 = false := by
  cases l with
  | nil => exact ⟨by simp [maxByVersion], fun m hm => by cases hm⟩
  | cons m0 ms =>
    refine ⟨by simp [maxByVersion], ?_⟩
    intro m hm
    simp only [maxByVersion, Option.some.injEq] at hm
    subst hm
    exact foldl_max_spec ms m0

/-- C5: release selection considers exactly the releases whose tag matches
the strict `vMAJOR[.MINOR[.PATCH]][-label]` pattern and passes the optional
version-prefix and label filters (the `matches` list equals that filter), it
returns `none` exactly when no release is eligible, any returned release is
an eligible release of the input that no eligible release strictly exceeds in
parsed-version order, and on the concrete tags `v1.2.0`, `v1.3.0-beta`,
`v1.2.5` the prefix filter `v1.2` selects `v1.2.5` while the label filter
`beta` with no prefix filter selects `v1.3.0-beta`. -/
theorem C5_release_selection (releases : List Release)
    (version_pfx : Option String) (label_match : Option (String → Bool)) :
    select_matches releases version_pfx label_match =
      (releases.filter (eligible version_pfx label_match)).map
        (fun r => (releaseVersion r, r)) ∧
    (select_latest_matching_release releases version_pfx label_match = none ↔
      releases.filter (eligible version_pfx label_match) = []) ∧
    (∀ r, select_latest_matching_release releases version_pfx label_match =
        some r →
      eligible version_pfx label_match r = true ∧ r ∈ releases ∧
      ∀ r' ∈ releases, eligible version_pfx label_match r' = true →
        versionLt (releaseVersion r) (releaseVersion r') = false) ∧
    select_latest_matching_release
      [⟨"v1.2.0"⟩, ⟨"v1.3.0-beta"⟩, ⟨"v1.2.5"⟩] (some "v1.2") none =
      some ⟨"v1.2.5"⟩ ∧
    select_latest_matching_release
      [⟨"v1.2.0"⟩, ⟨"v1.3.0-beta"⟩, ⟨"v1.2.5"⟩] none
      (some fun l => "beta".toList.isPrefixOf l.toList) =
      some ⟨"v1.3.0-beta"⟩ := by
  have hmatches := select_matches_eq releases version_pfx label_match
  have hmax := maxByVersion_spec (select_matches releases version_pfx label_match)
  refine ⟨hmatches, ?_, ?_, by decide, by decide⟩
  · unfold select_latest_matching_release
    cases hmb : maxByVersion (select_matches releases version_pfx label_match) with
    | none =>
      have hnil := hmax.1.mp hmb
      rw [hmatches] at hnil
      simp only [List.map_eq_nil_iff] at hnil
      simp [hnil]
    | some m =>
      constructor
      · intro h
        simp at h
      · intro hfil
        exfalso
        rw [hmatches, hfil] at hmb
        simp [maxByVersion] at hmb
  · intro r hr
    unfold select_latest_matching_release at hr
    cases hmb : maxByVersion (select_matches releases version_pfx label_match) with
    | none => rw [hmb] at hr; cases hr
    | some m =>
      rw [hmb] at hr
      simp only [Option.some.injEq] at hr
      obtain ⟨hmem, hmaxm⟩ := hmax.2 m hmb
      rw [hmatches] at hmem
      obtain ⟨r0, hr0f, hr0⟩ := List.mem_map.mp hmem
      obtain ⟨hr0mem, hr0el⟩ := List.mem_filter.mp hr0f
      have hm2 : m.2 = r0 := by rw [← hr0]
      have hm1 : m.1 = releaseVersion r0 := by rw [← hr0]
      subst hr
      rw [hm2]
      refine ⟨hr0el, hr0mem, ?_⟩
      intro r' hr'mem hr'el
      have : (releaseVersion r', r') ∈
          select_matches releases version_pfx label_match := by
        rw [hmatches]
        exact List.mem_map.mpr ⟨r', List.mem_filter.mpr ⟨hr'mem, hr'el⟩, rfl⟩
      have := hmaxm _ this
      rw [hm1] at this
      exact this

/-- C5 witness: applying the selection theorem to the spec's concrete tag
list shows the selected release `v1.2.5` is eligible under the prefix filter
`v1.2` and no eligible release strictly exceeds it. -/
theorem C5_release_selection_witness :
    eligible (some "v1.2") none ⟨"v1.2.5"⟩ = true ∧
    versionLt (releaseVersion ⟨"v1.2.5"⟩) (releaseVersion ⟨"v1.2.0"⟩) =
      false :=
  have h := (C5_release_selection
    [⟨"v1.2.0"⟩, ⟨"v1.3.0-beta"⟩, ⟨"v1.2.5"⟩] (some "v1.2") none).2.2.1
    ⟨"v1.2.5"⟩ (by decide)
  ⟨h.1, h.2.2 ⟨"v1.2.0"⟩ (by decide) (by decide)⟩

end Eng209
